import Mathlib

/-!
# Verification of the rhiza-core DAG ledger against its specification

A shallow embedding of the rhiza-core Rust sources (`rhiza-core/src`):
the DAG ledger (`dag/vertex.rs`), the transaction model and admission
validator (`dag/transaction.rs`, `dag/validator.rs`), the from-scratch
weight auditor (`consensus/weight.rs`), and the relay-reward tracker
(`consensus/relay.rs`), together with theorems settling the frozen claims
about them.

Modelling conventions:

* `Hash` (a 32-byte BLAKE3 digest compared by byte equality) and
  `PublicKey` (a 32-byte Ed25519 key) are modelled as `Nat`; the all-zero
  digest sentinel is `0`.  All claims quantify over ledger states built by
  insertions with arbitrary ids, so only decidable equality and the zero
  sentinel of the digest type are relevant.
* Rust `HashMap`s are modelled as association lists; `Vec` stacks push and
  pop at the list head, which preserves the LIFO order of `Vec::push` /
  `Vec::pop` exactly.
* `u64` quantities are `Nat`.  The places the source performs arithmetic
  that can overflow or truncate on inputs a caller can actually supply —
  the `amount + fee` sum in `validate_transfer` (release-mode wrapping
  `u64` addition; no Cargo profile in the sources enables overflow
  checks) and the final `i128 → u64` cast in `get_balance` — are modelled
  with an explicit `% 2 ^ 64`.  Counters that advance by one per call
  (cumulative weights, relay counters) are modelled as unbounded `Nat`,
  since wrapping them would require `2 ^ 64` insertions.
* The `i128` running balance in `get_balance` cannot overflow `i128` (it
  is a signed sum of one `u64` term or two per vertex) and is modelled as
  `Int`; the source's final `.max(0)` clamp and truncating `as u64` cast
  are `Int.toNat` followed by `% 2 ^ 64`.
* Cryptographic verification (`Transaction::verify_id`,
  `Transaction::verify_signature`) is abstracted into boolean oracles
  passed to `validate`; every claim about the validator conditions on
  both oracles returning `true`.
* The source `TransactionType` enum also has a `FounderAllocation`
  variant, but the validator's dispatch (`validator.rs`, lines 43–47) has
  no arm for it and no claim mentions it, so the embedding carries the
  three dispatched variants.
* The two `while let Some(id) = stack.pop()` traversals are embedded with
  an explicit fuel argument.  Fuel `2 * |vertices| + 1` is always
  sufficient: each iteration pops one element, and elements are pushed
  only as the two parent slots of a map-resident vertex on its first
  visit, so at most `1 + 2 * |vertices|` elements are ever on the stack.
  Every universally quantified theorem below is proved for all fuel
  values, so no theorem depends on this bound.
-/

namespace Rhiza

/-- Digest type of `crypto/hash.rs`, modelled as `Nat`; `0` is the
all-zero sentinel `Hash::zero()`. -/
abbrev Hash := Nat

/-- The reserved all-zero digest (`Hash::zero`). -/
def Hash.zero : Hash := 0

/-- Ed25519 public key of `crypto/keys.rs`, modelled as `Nat`. -/
abbrev PublicKey := Nat

/-! ## Protocol constants (`lib.rs`) -/

/-- Smallest unit scale: 1 RHZ = 10^8 rhiza (`lib.rs` line 11). -/
def UNITS_PER_RHZ : Nat := 100000000

/-- Maximum supply: 21,000,000 RHZ (`lib.rs` line 14). -/
def MAX_SUPPLY : Nat := 21000000 * UNITS_PER_RHZ

/-- Minimum cumulative weight for finality (`lib.rs` line 20). -/
def FINALITY_THRESHOLD : Nat := 10

/-- Base relay reward in smallest units (`lib.rs` line 23). -/
def BASE_RELAY_REWARD : Nat := 1000000

/-- Relay count at which the reward halves (`lib.rs` line 26). -/
def RELAY_HALVING_INTERVAL : Nat := 1000

/-- Modulus of 64-bit unsigned arithmetic. -/
def U64_MOD : Nat := 2 ^ 64

/-! ## Transaction model (`dag/transaction.rs`) -/

/-- Transaction type tag.  The source enum also declares
`FounderAllocation`, which the validator never dispatches and no claim
touches. -/
inductive TransactionType
  | Genesis
  | Transfer
  | RelayReward
deriving DecidableEq

/-- The signed payload of a transaction (`TransactionData`).  The
`[Hash; 2]` parents array is a pair, iterated first component first as the
source loops do. -/
structure TransactionData where
  tx_type : TransactionType
  parents : Hash × Hash
  sender : PublicKey
  recipient : PublicKey
  amount : Nat
  fee : Nat
  timestamp : Nat
  nonce : Nat
  memo : Option String
deriving DecidableEq

/-- A complete transaction.  The Ed25519 signature bytes are abstracted
away; signature verification enters as a boolean oracle in `validate`. -/
structure Transaction where
  id : Hash
  data : TransactionData
deriving DecidableEq

/-! ## DAG vertices (`dag/vertex.rs`) -/

/-- A vertex in the DAG: a transaction plus derived ledger metadata. -/
structure DagVertex where
  transaction : Transaction
  cumulative_weight : Nat
  own_weight : Nat
  is_final : Bool
  depth : Nat
deriving DecidableEq

/-- `DagVertex::new`: fresh vertex with own weight 1 and `is_final`
false. -/
def DagVertex.new (transaction : Transaction) (depth : Nat) : DagVertex :=
  { transaction := transaction
    cumulative_weight := 1
    own_weight := 1
    is_final := false
    depth := depth }

/-- `DagVertex::id`. -/
def DagVertex.id (v : DagVertex) : Hash := v.transaction.id

/-- `DagVertex::parents`. -/
def DagVertex.parents (v : DagVertex) : Hash × Hash := v.transaction.data.parents

/-! ## Association-list maps

`HashMap<Hash, _>` is modelled as an association list with `Nat` keys.
Reachable ledger states keep keys distinct (duplicates are rejected before
insertion), and all operations read and update the first occurrence of a
key, matching `HashMap` semantics on such lists. -/

/-- Map lookup (`HashMap::get` / `contains_key`). -/
def mget {β : Type} : List (Nat × β) → Nat → Option β
  | [], _ => none
  | (k, v) :: rest, k' => if k = k' then some v else mget rest k'

/-- Update the value at a key in place if present, identity otherwise
(`HashMap::get_mut` followed by a field update). -/
def mupd {β : Type} (f : β → β) : List (Nat × β) → Nat → List (Nat × β)
  | [], _ => []
  | (k, v) :: rest, k' =>
      if k = k' then (k, f v) :: rest else (k, v) :: mupd f rest k'

/-- `HashMap::insert` (replace if present, append otherwise). -/
def mset {β : Type} : List (Nat × β) → Nat → β → List (Nat × β)
  | [], k, v => [(k, v)]
  | (k', v') :: rest, k, v =>
      if k' = k then (k, v) :: rest else (k', v') :: mset rest k v

/-- `children.entry(parent).or_default().push(id)`: append a child id to
the vector stored under a key, creating the entry if absent. -/
def pushChild : List (Nat × List Nat) → Nat → Nat → List (Nat × List Nat)
  | [], parent, c => [(parent, [c])]
  | (k, cs) :: rest, parent, c =>
      if k = parent then (k, cs ++ [c]) :: rest
      else (k, cs) :: pushChild rest parent c

/-! ## The DAG ledger (`dag/vertex.rs`) -/

/-- `DagError` (`dag/vertex.rs` lines 217–225). -/
inductive DagError
  | DuplicateTransaction
  | MissingParent (parent : Hash)
  | InvalidTransaction
deriving DecidableEq

/-- The DAG ledger state (`struct Dag`). -/
structure Dag where
  vertices : List (Hash × DagVertex)
  children : List (Hash × List Hash)
  tips : List Hash
  genesis_id : Option Hash
deriving DecidableEq

/-- `Dag::new`. -/
def Dag.new : Dag :=
  { vertices := [], children := [], tips := [], genesis_id := none }

/-- `Dag::get`. -/
def Dag.get (d : Dag) (id : Hash) : Option DagVertex := mget d.vertices id

/-- `Dag::tips`. -/
def Dag.tipsOf (d : Dag) : List Hash := d.tips

/-- `Dag::transaction_ids` (iteration order modelled as insertion
order). -/
def Dag.transaction_ids (d : Dag) : List Hash := d.vertices.map Prod.fst

/-- One `cumulative_weight += 1` step of `update_weights` on a parent, with
the in-line finality check (`vertex.rs` lines 172–178); identity when the
parent id is not in the map, as `if let Some(parent_vertex) = get_mut`. -/
def incParent (vs : List (Hash × DagVertex)) (p : Hash) : List (Hash × DagVertex) :=
  mupd (fun pv =>
    let w := pv.cumulative_weight + 1
    { pv with
        cumulative_weight := w
        is_final := if FINALITY_THRESHOLD ≤ w then true else pv.is_final }) vs p

/-- One iteration of the `for parent in &parents` body inside
`update_weights`: skip the zero sentinel, otherwise increment the parent's
weight (if resident) and push the parent digest on the stack. -/
def stepParent (st : List (Hash × DagVertex) × List Hash) (p : Hash) :
    List (Hash × DagVertex) × List Hash :=
  if p = Hash.zero then st else (incParent st.1 p, p :: st.2)

/-- The `while let Some(id) = stack.pop()` loop of `Dag::update_weights`
(`vertex.rs` lines 158–184), with explicit fuel.  Each popped id is
skipped if already visited; otherwise it is marked visited and, if
resident in the vertex map, both of its parent slots are processed in
array order. -/
def weightLoop : Nat → List (Hash × DagVertex) → List Hash → List Hash →
    List (Hash × DagVertex)
  | 0, vs, _, _ => vs
  | fuel + 1, vs, stack, visited =>
    match stack with
    | [] => vs
    | id :: rest =>
      if id ∈ visited then weightLoop fuel vs rest visited
      else
        match mget vs id with
        | none => weightLoop fuel vs rest (id :: visited)
        | some vertex =>
          let st := stepParent (stepParent (vs, rest) vertex.parents.1)
              vertex.parents.2
          weightLoop fuel st.1 st.2 (id :: visited)

/-- `Dag::update_weights`, started at the newly inserted vertex id.  The
fuel `2 * |vertices| + 1` bounds the total number of stack pops (see the
file header). -/
def Dag.update_weights (d : Dag) (new_vertex_id : Hash) : Dag :=
  { d with
      vertices := weightLoop (2 * d.vertices.length + 1) d.vertices
        [new_vertex_id] [] }

/-- The tail of `Dag::insert` after all checks have passed (`vertex.rs`
lines 94–107): record genesis identity, add the new vertex to the tip
set, store the vertex, then propagate weights. -/
def Dag.finishInsert (d : Dag) (id : Hash) (vertex : DagVertex) : Dag :=
  let d1 :=
    if vertex.transaction.data.parents.1 = Hash.zero ∧ d.genesis_id.isNone
    then { d with genesis_id := some id } else d
  let d2 := { d1 with tips := d1.tips ++ [id] }
  let d3 := { d2 with vertices := d2.vertices ++ [(id, vertex)] }
  d3.update_weights id

/-- `Dag::insert` (`vertex.rs` lines 69–108).  The receiver is mutated in
place in the source, so the embedding returns the resulting state together
with the `Result`: early `return Err(...)` paths return whatever state has
been built up to that point.  The `for parent in vertex.parents()` check
loop is unrolled over the two array slots in order. -/
def Dag.insert (d : Dag) (vertex : DagVertex) : Except DagError Unit × Dag :=
  let id := vertex.id
  if (mget d.vertices id).isSome then (.error .DuplicateTransaction, d)
  else
    let ps := vertex.parents
    if ps.1 ≠ Hash.zero then
      if (mget d.vertices ps.1).isNone then (.error (.MissingParent ps.1), d)
      else
        let d1 := { d with
          children := pushChild d.children ps.1 id
          tips := d.tips.filter (fun t => t ≠ ps.1) }
        if (mget d1.vertices ps.2).isNone then
          (.error (.MissingParent ps.2), d1)
        else
          let d2 := { d1 with
            children := pushChild d1.children ps.2 id
            tips := d1.tips.filter (fun t => t ≠ ps.2) }
          (.ok (), d2.finishInsert id vertex)
    else
      (.ok (), d.finishInsert id vertex)

/-- `Dag::get_balance` (`vertex.rs` lines 186–208): full scan adding
received amounts, subtracting sent amount plus fee for non-self-directed
transactions; the final `i128` total is clamped at zero (`.max(0)`, which
`Int.toNat` performs) and then cast to `u64` (`as u64`, which truncates
modulo `2 ^ 64`). -/
def Dag.get_balance (d : Dag) (pubkey : PublicKey) : Nat :=
  (d.vertices.foldl
    (fun (balance : Int) pair =>
      let tx := pair.2.transaction
      let b1 := if tx.data.recipient = pubkey
        then balance + (tx.data.amount : Int) else balance
      if tx.data.sender = pubkey ∧ tx.data.recipient ≠ pubkey
        then b1 - (tx.data.amount : Int) - (tx.data.fee : Int) else b1)
    0).toNat % U64_MOD

/-! ## The from-scratch weight auditor (`consensus/weight.rs`) -/

/-- Push the nonzero parent slots of a vertex, first slot first, onto the
stack (so the second slot is popped first, as with `Vec::push` /
`Vec::pop`). -/
def pushParents (v : DagVertex) (stack : List Hash) : List Hash :=
  let s1 := if v.parents.1 = Hash.zero then stack else v.parents.1 :: stack
  if v.parents.2 = Hash.zero then s1 else v.parents.2 :: s1

/-- The inner `while let Some(current) = stack.pop()` loop of
`WeightCalculator::calculate_all_weights` (`weight.rs` lines 27–43) for
one source vertex `srcId`: mark each popped id visited, add one to its
entry in the weights map when it differs from the source, and expand its
parents when it is resident in the DAG. -/
def calcLoop (d : Dag) : Nat → List Hash → List Hash → List (Hash × Nat) →
    Hash → List (Hash × Nat)
  | 0, _, _, ws, _ => ws
  | fuel + 1, stack, visited, ws, srcId =>
    match stack with
    | [] => ws
    | current :: rest =>
      if current ∈ visited then calcLoop d fuel rest visited ws srcId
      else
        let ws1 := if current ≠ srcId then mupd (· + 1) ws current else ws
        match mget d.vertices current with
        | none => calcLoop d fuel rest (current :: visited) ws1 srcId
        | some v => calcLoop d fuel (pushParents v rest) (current :: visited)
            ws1 srcId

/-- `WeightCalculator::calculate_all_weights` (`weight.rs` lines 13–48):
initialize every transaction id to weight 1, then for every resident
vertex add its contribution to all of its ancestors, deduplicated by a
per-source visited set. -/
def WeightCalculator.calculate_all_weights (d : Dag) : List (Hash × Nat) :=
  let ids := d.transaction_ids
  let init := ids.foldl (fun ws id => mset ws id 1) []
  ids.foldl
    (fun ws id =>
      if (d.get id).isSome then calcLoop d (2 * d.vertices.length + 1) [id] [] ws id
      else ws)
    init

/-! ## The admission validator (`dag/validator.rs`) -/

/-- `ValidationError` (`validator.rs` lines 7–27).  The payload of
`InvalidTimestamp` is irrelevant to every claim and is dropped. -/
inductive ValidationError
  | InvalidSignature
  | InvalidId
  | InsufficientBalance (haveAmt needAmt : Nat)
  | ZeroAmount
  | ExceedsMaxSupply
  | ParentNotFound
  | SelfReference
  | InvalidRelayReward
  | InvalidTimestamp
deriving DecidableEq

/-- `TransactionValidator::validate_genesis` (`validator.rs` lines
50–60). -/
def validate_genesis (tx : Transaction) (dag : Dag) : Except ValidationError Unit :=
  if dag.genesis_id.isSome then .error .InvalidId
  else if tx.data.parents.1 ≠ Hash.zero ∨ tx.data.parents.2 ≠ Hash.zero then
    .error .ParentNotFound
  else .ok ()

/-- `TransactionValidator::validate_transfer` (`validator.rs` lines
62–91).  The parent-existence loop is unrolled in array order, and
`amount + fee` is the release-mode wrapping 64-bit sum. -/
def validate_transfer (tx : Transaction) (dag : Dag) : Except ValidationError Unit :=
  if tx.data.amount = 0 then .error .ZeroAmount
  else if MAX_SUPPLY < tx.data.amount then .error .ExceedsMaxSupply
  else if (dag.get tx.data.parents.1).isNone then .error .ParentNotFound
  else if (dag.get tx.data.parents.2).isNone then .error .ParentNotFound
  else
    let balance := dag.get_balance tx.data.sender
    let total_needed := (tx.data.amount + tx.data.fee) % U64_MOD
    if balance < total_needed then
      .error (.InsufficientBalance balance total_needed)
    else .ok ()

/-- `TransactionValidator::validate_relay_reward` (`validator.rs` lines
93–113). -/
def validate_relay_reward (tx : Transaction) (dag : Dag) :
    Except ValidationError Unit :=
  if tx.data.sender ≠ tx.data.recipient then .error .InvalidRelayReward
  else if (dag.get tx.data.parents.1).isNone then .error .ParentNotFound
  else if (dag.get tx.data.parents.2).isNone then .error .ParentNotFound
  else if BASE_RELAY_REWARD < tx.data.amount then .error .InvalidRelayReward
  else .ok ()

/-- `TransactionValidator::validate` (`validator.rs` lines 31–48).
`verifyId` and `verifySig` are the abstracted `Transaction::verify_id` and
`Transaction::verify_signature` oracles, consulted in source order before
the type dispatch. -/
def validate (verifyId verifySig : Transaction → Bool) (tx : Transaction)
    (dag : Dag) : Except ValidationError Unit :=
  if ¬ verifyId tx then .error .InvalidId
  else if ¬ verifySig tx then .error .InvalidSignature
  else
    match tx.data.tx_type with
    | .Genesis => validate_genesis tx dag
    | .Transfer => validate_transfer tx dag
    | .RelayReward => validate_relay_reward tx dag

/-! ## The relay tracker (`consensus/relay.rs`) -/

/-- `RelayTracker::calculate_reward` (`relay.rs` lines 93–96): stepwise
diminishing reward by integer division.  The `u64` sum
`1 + count / RELAY_HALVING_INTERVAL` cannot wrap for any `u64` count. -/
def calculate_reward (node_relay_count : Nat) : Nat :=
  BASE_RELAY_REWARD / (1 + node_relay_count / RELAY_HALVING_INTERVAL)

/-- `RelayTracker` state.  The per-key counter map with
`entry(..).or_insert(0)` semantics is a total function defaulting to
zero, exactly the view `get_relay_count` exposes. -/
structure RelayTracker where
  relay_counts : PublicKey → Nat
  total_relays : Nat
  total_rewards_distributed : Nat

/-- `RelayTracker::new`. -/
def RelayTracker.new : RelayTracker :=
  { relay_counts := fun _ => 0, total_relays := 0, total_rewards_distributed := 0 }

/-- `RelayTracker::record_relay` (`relay.rs` lines 74–89): advance the
caller's counter and the global counter, compute the reward from the
post-increment count, and add it to the issued total only when doing so
keeps the total within `MAX_SUPPLY`, returning 0 otherwise. -/
def RelayTracker.record_relay (t : RelayTracker) (relayer : PublicKey) :
    Nat × RelayTracker :=
  let current_count := t.relay_counts relayer + 1
  let counts := fun k => if k = relayer then current_count else t.relay_counts k
  let reward := calculate_reward current_count
  if MAX_SUPPLY < t.total_rewards_distributed + reward then
    (0, { relay_counts := counts
          total_relays := t.total_relays + 1
          total_rewards_distributed := t.total_rewards_distributed })
  else
    (reward, { relay_counts := counts
               total_relays := t.total_relays + 1
               total_rewards_distributed := t.total_rewards_distributed + reward })

/-! ## Reachable states

The claims quantify over ledger states built by sequences of `Dag::insert`
calls on vertices created by `DagVertex::new` (the only vertex
constructor), and over tracker states built by `record_relay` calls. -/

/-- States reachable from `Dag::new` by successful insertions. -/
inductive Reaches : Dag → Prop
  | base : Reaches Dag.new
  | step (d : Dag) (tx : Transaction) (depth : Nat) (d' : Dag) :
      Reaches d → Dag.insert d (DagVertex.new tx depth) = (.ok (), d') →
      Reaches d'

/-- States reachable from `Dag::new` by arbitrary `Dag::insert` calls,
keeping whatever state each call leaves behind whether it succeeds or
fails. -/
inductive ReachesAny : Dag → Prop
  | base : ReachesAny Dag.new
  | step (d : Dag) (tx : Transaction) (depth : Nat) :
      ReachesAny d → ReachesAny (Dag.insert d (DagVertex.new tx depth)).2

/-- Tracker states reachable from `RelayTracker::new` by `record_relay`
calls. -/
inductive TrackerReaches : RelayTracker → Prop
  | base : TrackerReaches RelayTracker.new
  | step (t : RelayTracker) (k : PublicKey) :
      TrackerReaches t → TrackerReaches (t.record_relay k).2

/-! ## Concrete ledger states used by counterexamples and witnesses -/

/-- Build a transaction with the given id, type tag, parent pair, sender,
recipient, amount and fee (timestamp, nonce and memo are irrelevant to
every modelled operation). -/
def mkTx (id : Hash) (ty : TransactionType) (p1 p2 : Hash)
    (s r amt fee : Nat) : Transaction :=
  ⟨id, { tx_type := ty, parents := (p1, p2), sender := s, recipient := r,
         amount := amt, fee := fee, timestamp := 0, nonce := 0, memo := none }⟩

/-- A genesis transaction with id 1 and two zero parents. -/
def genesisTx : Transaction := mkTx 1 .Genesis 0 0 100 100 0 0

/-- A transfer with id 2 naming the genesis twice as parent, as
`Dag::select_parents` produces whenever the ledger has a single tip. -/
def childTx : Transaction := mkTx 2 .Transfer 1 1 100 200 5 0

/-- The ledger after inserting only the genesis. -/
def dagG : Dag := (Dag.insert Dag.new (DagVertex.new genesisTx 0)).2

/-- The ledger after inserting the genesis and one child with two
identical parent digests. -/
def dagC1 : Dag := (Dag.insert dagG (DagVertex.new childTx 1)).2

/-- A transfer whose first parent (the genesis) exists and whose second
parent digest 7 is absent. -/
def missTx : Transaction := mkTx 2 .Transfer 1 7 100 200 5 0

/-- A transfer whose first parent slot holds the zero sentinel while the
second slot names the genesis. -/
def halfTx : Transaction := mkTx 2 .Transfer 0 1 100 200 5 0

/-- The ledger after inserting the genesis and `halfTx`. -/
def dagHalf : Dag := (Dag.insert dagG (DagVertex.new halfTx 1)).2

/-- A vertex whose first parent slot is zero and whose second slot names
the absent digest 7. -/
def dangTx : Transaction := mkTx 5 .Transfer 0 7 100 200 5 0

/-- The ledger after inserting only `dangTx` into an empty ledger. -/
def dagDang : Dag := (Dag.insert Dag.new (DagVertex.new dangTx 0)).2

/-- A relay-reward of 1,000,000 units to key 50, chained off the
genesis. -/
def rewardTx : Transaction := mkTx 2 .RelayReward 1 1 50 50 1000000 0

/-- The ledger holding the genesis and `rewardTx`, in which key 50 has
balance 1,000,000. -/
def dagBal : Dag := (Dag.insert dagG (DagVertex.new rewardTx 1)).2

/-- A transfer of 1,500,000 units from key 50 (balance 1,000,000). -/
def bigXferTx : Transaction := mkTx 3 .Transfer 1 2 50 60 1500000 0

/-- A transfer of amount 1 whose fee `2 ^ 64 - 1` makes the wrapping
64-bit sum `amount + fee` equal to zero. -/
def wrapFeeTx : Transaction := mkTx 3 .Transfer 1 1 50 60 1 (2 ^ 64 - 1)

/-! ## Derived predicates used in claim statements -/

/-- Some entry of the vertex list names `id` in one of its parent slots
and was admitted through the non-genesis path (nonzero first parent slot)
— exactly the vertices whose insertion removed their parents from the tip
set. -/
def namesParent (vs : List (Hash × DagVertex)) (id : Hash) : Bool :=
  vs.any fun p =>
    decide (p.2.parents.1 ≠ Hash.zero ∧ (p.2.parents.1 = id ∨ p.2.parents.2 = id))

/-- Some entry of the vertex list names `id` in one of its parent slots,
regardless of the first slot's zero test — the literal reading of a
vertex "naming `id` as a parent". -/
def namesParentAnySlot (vs : List (Hash × DagVertex)) (id : Hash) : Bool :=
  vs.any fun p => decide (p.2.parents.1 = id ∨ p.2.parents.2 = id)

/-! ## Association-list lemmas -/

theorem mget_mupd {β : Type} (f : β → β) (m : List (Nat × β)) (k k' : Nat) :
    mget (mupd f m k) k' =
      if k = k' then Option.map f (mget m k') else mget m k' := by
  induction m with
  | nil => simp [mget, mupd]
  | cons hd tl ih =>
    obtain ⟨a, v⟩ := hd
    by_cases hak : a = k
    · subst hak
      by_cases hk' : a = k'
      · subst hk'
        simp [mget, mupd]
      · simp [mget, mupd, hk']
    · by_cases hk' : a = k'
      · subst hk'
        simp [mget, mupd, hak, Ne.symm hak]
      · simp [mget, mupd, hak, hk', ih]

theorem mget_append_some {β : Type} {m : List (Nat × β)} {k : Nat} {v : β}
    (l : List (Nat × β)) (h : mget m k = some v) : mget (m ++ l) k = some v := by
  induction m with
  | nil => simp [mget] at h
  | cons hd tl ih =>
    obtain ⟨a, w⟩ := hd
    by_cases hak : a = k
    · simp [mget, hak] at h ⊢
      exact h
    · simp [mget, hak] at h ⊢
      exact ih h

theorem mget_append_none {β : Type} {m : List (Nat × β)} {k : Nat}
    (l : List (Nat × β)) (h : mget m k = none) : mget (m ++ l) k = mget l k := by
  induction m with
  | nil => simp [mget]
  | cons hd tl ih =>
    obtain ⟨a, w⟩ := hd
    by_cases hak : a = k
    · simp [mget, hak] at h
    · simp [mget, hak] at h ⊢
      exact ih h

theorem mget_some_mem {β : Type} {m : List (Nat × β)} {k : Nat} {v : β}
    (h : mget m k = some v) : (k, v) ∈ m := by
  induction m with
  | nil => simp [mget] at h
  | cons hd tl ih =>
    obtain ⟨a, w⟩ := hd
    by_cases hak : a = k
    · subst hak
      simp [mget] at h
      simp [h]
    · simp [mget, hak] at h
      exact List.mem_cons_of_mem _ (ih h)

theorem mget_none_not_mem {β : Type} {m : List (Nat × β)} {k : Nat}
    (h : mget m k = none) : ∀ p ∈ m, p.1 ≠ k := by
  induction m with
  | nil => simp
  | cons hd tl ih =>
    obtain ⟨a, w⟩ := hd
    by_cases hak : a = k
    · simp [mget, hak] at h
    · simp [mget, hak] at h
      intro p hp
      rcases List.mem_cons.mp hp with h1 | h1
      · subst h1
        exact hak
      · exact ih h p h1

theorem mem_mupd {β : Type} {f : β → β} {m : List (Nat × β)} {k : Nat}
    {p : Nat × β} (h : p ∈ mupd f m k) :
    p ∈ m ∨ ∃ v, (p.1, v) ∈ m ∧ p.2 = f v := by
  induction m with
  | nil => simp [mupd] at h
  | cons hd tl ih =>
    obtain ⟨a, w⟩ := hd
    by_cases hak : a = k
    · subst hak
      simp [mupd] at h
      rcases h with h1 | h1
      · right
        exact ⟨w, by simp [h1]⟩
      · left
        exact List.mem_cons_of_mem _ h1
    · simp [mupd, hak] at h
      rcases h with h1 | h1
      · left
        simp [h1]
      · rcases ih h1 with h2 | ⟨v, hv, hpv⟩
        · exact Or.inl (List.mem_cons_of_mem _ h2)
        · exact Or.inr ⟨v, List.mem_cons_of_mem _ hv, hpv⟩

/-! ## Entrywise effect of the weight-propagation loop

`update_weights` only ever applies `cumulative_weight + 1` updates with a
sticky finality check to values already in the vertex map.  `VertexStep`
captures everything such an update preserves: the key, the transaction,
the depth and own weight, monotone weight growth and the monotone
finality flag. -/

/-- Relation between a vertex-map entry and its image under any number of
`incParent` updates. -/
def VertexStep (a b : Hash × DagVertex) : Prop :=
  a.1 = b.1 ∧ a.2.transaction = b.2.transaction ∧ a.2.depth = b.2.depth ∧
    a.2.own_weight = b.2.own_weight ∧
    a.2.cumulative_weight ≤ b.2.cumulative_weight ∧
    (a.2.is_final = true → b.2.is_final = true)

theorem vertexStep_refl (a : Hash × DagVertex) : VertexStep a a :=
  ⟨rfl, rfl, rfl, rfl, Nat.le_refl _, fun h => h⟩

theorem vertexStep_trans {a b c : Hash × DagVertex}
    (h1 : VertexStep a b) (h2 : VertexStep b c) : VertexStep a c :=
  ⟨h1.1.trans h2.1, h1.2.1.trans h2.2.1, h1.2.2.1.trans h2.2.2.1,
    h1.2.2.2.1.trans h2.2.2.2.1, h1.2.2.2.2.1.trans h2.2.2.2.2.1,
    fun h => h2.2.2.2.2.2 (h1.2.2.2.2.2 h)⟩

theorem forall2_vertexStep_refl (m : List (Hash × DagVertex)) :
    List.Forall₂ VertexStep m m := by
  induction m with
  | nil => exact List.Forall₂.nil
  | cons hd tl ih => exact List.Forall₂.cons (vertexStep_refl hd) ih

theorem forall2_vertexStep_trans :
    ∀ {a b c : List (Hash × DagVertex)}, List.Forall₂ VertexStep a b →
      List.Forall₂ VertexStep b c → List.Forall₂ VertexStep a c := by
  intro a b c h1 h2
  induction h1 generalizing c with
  | nil =>
    cases h2
    exact List.Forall₂.nil
  | cons hab htl ih =>
    cases h2 with
    | cons hbc htl2 => exact List.Forall₂.cons (vertexStep_trans hab hbc) (ih htl2)

theorem forall2_mupd (f : DagVertex → DagVertex)
    (hf : ∀ v : DagVertex, (f v).transaction = v.transaction ∧
      (f v).depth = v.depth ∧ (f v).own_weight = v.own_weight ∧
      v.cumulative_weight ≤ (f v).cumulative_weight ∧
      (v.is_final = true → (f v).is_final = true))
    (m : List (Hash × DagVertex)) (k : Nat) :
    List.Forall₂ VertexStep m (mupd f m k) := by
  induction m with
  | nil => exact List.Forall₂.nil
  | cons hd tl ih =>
    obtain ⟨a, v⟩ := hd
    by_cases hak : a = k
    · simp only [mupd, hak, if_pos rfl]
      refine List.Forall₂.cons ?_ (forall2_vertexStep_refl tl)
      obtain ⟨h1, h2, h3, h4, h5⟩ := hf v
      exact ⟨rfl, h1.symm, h2.symm, h3.symm, h4, h5⟩
    · simp only [mupd, if_neg hak]
      exact List.Forall₂.cons (vertexStep_refl _) ih

theorem forall2_incParent (m : List (Hash × DagVertex)) (p : Hash) :
    List.Forall₂ VertexStep m (incParent m p) := by
  unfold incParent
  apply forall2_mupd
  intro v
  refine ⟨rfl, rfl, rfl, Nat.le_succ _, ?_⟩
  intro h
  simp only
  split
  · rfl
  · exact h

theorem forall2_stepParent (m : List (Hash × DagVertex)) (s : List Hash)
    (p : Hash) : List.Forall₂ VertexStep m (stepParent (m, s) p).1 := by
  unfold stepParent
  split
  · exact forall2_vertexStep_refl m
  · exact forall2_incParent m p

theorem forall2_weightLoop (fuel : Nat) :
    ∀ (vs : List (Hash × DagVertex)) (stack visited : List Hash),
      List.Forall₂ VertexStep vs (weightLoop fuel vs stack visited) := by
  induction fuel with
  | zero => intro vs stack visited; exact forall2_vertexStep_refl vs
  | succ fuel ih =>
    intro vs stack visited
    match stack with
    | [] => exact forall2_vertexStep_refl vs
    | id :: rest =>
      simp only [weightLoop]
      by_cases hv : id ∈ visited
      · simpa [hv] using ih vs rest visited
      · simp only [if_neg hv]
        cases hget : mget vs id with
        | none => exact ih vs rest (id :: visited)
        | some vertex =>
          refine forall2_vertexStep_trans ?_ (ih _ _ _)
          refine forall2_vertexStep_trans (forall2_stepParent vs rest
            vertex.parents.1) ?_
          exact forall2_stepParent _ _ vertex.parents.2

/-! ## Consequences of the entrywise relation -/

theorem forall2_mget_fwd :
    ∀ {a b : List (Hash × DagVertex)}, List.Forall₂ VertexStep a b →
      ∀ {k : Nat} {v : DagVertex}, mget a k = some v →
        ∃ v', mget b k = some v' ∧ VertexStep (k, v) (k, v') := by
  intro a b h
  induction h with
  | nil => intro k v hv; simp [mget] at hv
  | cons hab htl ih =>
    intro k v hv
    obtain ⟨x, y⟩ := ‹_ × _›
    rename_i a' b' l1 l2
    obtain ⟨xa, va⟩ := a'
    obtain ⟨xb, vb⟩ := b'
    have hkey : xa = xb := hab.1
    by_cases hk : xa = k
    · subst hk
      simp [mget] at hv
      subst hv
      refine ⟨vb, ?_, ?_⟩
      · simp [mget, ← hkey]
      · exact ⟨rfl, hab.2.1, hab.2.2.1, hab.2.2.2.1, hab.2.2.2.2.1,
          hab.2.2.2.2.2⟩
    · simp [mget, hk] at hv
      obtain ⟨v', hv', hstep⟩ := ih hv
      refine ⟨v', ?_, hstep⟩
      rw [← hkey]
      simp [mget, hk]
      exact hv'

theorem forall2_mget_bwd :
    ∀ {a b : List (Hash × DagVertex)}, List.Forall₂ VertexStep a b →
      ∀ {k : Nat} {v' : DagVertex}, mget b k = some v' →
        ∃ v, mget a k = some v ∧ VertexStep (k, v) (k, v') := by
  intro a b h
  induction h with
  | nil => intro k v' hv; simp [mget] at hv
  | cons hab htl ih =>
    intro k v' hv
    rename_i a' b' l1 l2
    obtain ⟨xa, va⟩ := a'
    obtain ⟨xb, vb⟩ := b'
    have hkey : xa = xb := hab.1
    by_cases hk : xa = k
    · subst hk
      rw [← hkey] at hv
      simp [mget] at hv
      subst hv
      refine ⟨va, by simp [mget], ?_⟩
      exact ⟨rfl, hab.2.1, hab.2.2.1, hab.2.2.2.1, hab.2.2.2.2.1,
        hab.2.2.2.2.2⟩
    · rw [← hkey] at hv
      simp [mget, hk] at hv
      obtain ⟨v, hv2, hstep⟩ := ih hv
      refine ⟨v, ?_, hstep⟩
      simp [mget, hk]
      exact hv2

theorem forall2_mget_none :
    ∀ {a b : List (Hash × DagVertex)}, List.Forall₂ VertexStep a b →
      ∀ {k : Nat}, mget a k = none → mget b k = none := by
  intro a b h k hk
  cases hb : mget b k with
  | none => rfl
  | some v' =>
    obtain ⟨v, hv, _⟩ := forall2_mget_bwd h hb
    rw [hk] at hv
    exact absurd hv (by simp)

theorem forall2_mem_bwd :
    ∀ {a b : List (Hash × DagVertex)}, List.Forall₂ VertexStep a b →
      ∀ {p : Hash × DagVertex}, p ∈ b → ∃ q ∈ a, VertexStep q p := by
  intro a b h
  induction h with
  | nil => intro p hp; simp at hp
  | cons hab htl ih =>
    intro p hp
    rcases List.mem_cons.mp hp with h1 | h1
    · subst h1
      exact ⟨_, List.mem_cons_self _ _, hab⟩
    · obtain ⟨q, hq, hstep⟩ := ih h1
      exact ⟨q, List.mem_cons_of_mem _ hq, hstep⟩

theorem forall2_namesParent :
    ∀ {a b : List (Hash × DagVertex)}, List.Forall₂ VertexStep a b →
      ∀ id, namesParent a id = namesParent b id := by
  intro a b h id
  induction h with
  | nil => rfl
  | cons hab htl ih =>
    rename_i a' b' l1 l2
    simp only [namesParent, List.any_cons] at ih ⊢
    have hpar : a'.2.parents = b'.2.parents := by
      unfold DagVertex.parents
      rw [hab.2.1]
    rw [hpar, ih]

/-! ## The finality-flag invariant

`update_weights` sets `is_final` at the very `+= 1` step whose result
reaches the threshold, so the stored flag always equals the threshold
test on the stored weight. -/

/-- Every entry's finality flag agrees with the threshold test on its
cumulative weight. -/
def FlagOk (vs : List (Hash × DagVertex)) : Prop :=
  ∀ p ∈ vs, p.2.is_final = decide (FINALITY_THRESHOLD ≤ p.2.cumulative_weight)

theorem flagOk_incParent {m : List (Hash × DagVertex)} (p : Hash)
    (hm : FlagOk m) : FlagOk (incParent m p) := by
  intro q hq
  rcases mem_mupd hq with h1 | ⟨v, hv, hq2⟩
  · exact hm q h1
  · have hold := hm (q.1, v) hv
    simp only at hold
    rw [hq2]
    simp only
    by_cases hw : FINALITY_THRESHOLD ≤ v.cumulative_weight + 1
    · simp [hw]
    · rw [if_neg hw, hold]
      rw [decide_eq_decide]
      constructor
      · intro h
        exact absurd (Nat.le_succ_of_le h) hw
      · intro h
        exact absurd h hw

theorem flagOk_stepParent {m : List (Hash × DagVertex)} (s : List Hash)
    (p : Hash) (hm : FlagOk m) : FlagOk (stepParent (m, s) p).1 := by
  unfold stepParent
  split
  · exact hm
  · exact flagOk_incParent p hm

theorem flagOk_weightLoop (fuel : Nat) :
    ∀ (vs : List (Hash × DagVertex)) (stack visited : List Hash),
      FlagOk vs → FlagOk (weightLoop fuel vs stack visited) := by
  induction fuel with
  | zero => intro vs stack visited h; exact h
  | succ fuel ih =>
    intro vs stack visited h
    match stack with
    | [] => exact h
    | id :: rest =>
      simp only [weightLoop]
      by_cases hv : id ∈ visited
      · simpa [hv] using ih vs rest visited h
      · simp only [if_neg hv]
        cases hget : mget vs id with
        | none => exact ih vs rest (id :: visited) h
        | some vertex =>
          apply ih
          have h1 := flagOk_stepParent rest vertex.parents.1 h
          exact flagOk_stepParent _ vertex.parents.2 h1

theorem flagOk_append {a b : List (Hash × DagVertex)}
    (ha : FlagOk a) (hb : FlagOk b) : FlagOk (a ++ b) := by
  intro p hp
  rcases List.mem_append.mp hp with h | h
  · exact ha p h
  · exact hb p h

/-! ## Characterization of `Dag::insert` -/

theorem insert_err_char {d : Dag} {v : DagVertex} {e : DagError} {d' : Dag}
    (h : Dag.insert d v = (.error e, d')) :
    d'.vertices = d.vertices ∧ d'.genesis_id = d.genesis_id ∧
      ((e = .DuplicateTransaction ∨ (mget d.vertices v.parents.1).isNone)
        → d' = d) ∧
      (e ≠ .DuplicateTransaction → (mget d.vertices v.parents.1).isSome →
        e = .MissingParent v.parents.2 ∧
          (mget d.vertices v.parents.2).isNone ∧
          d'.children = pushChild d.children v.parents.1 v.id ∧
          d'.tips = d.tips.filter (fun t => t ≠ v.parents.1)) := by
  unfold Dag.insert at h
  by_cases hdup : (mget d.vertices v.id).isSome
  · rw [if_pos hdup] at h
    obtain ⟨he, hd⟩ := Prod.mk.injEq .. ▸ h
    cases he
    subst hd
    exact ⟨rfl, rfl, fun _ => rfl, fun hne _ => absurd rfl hne⟩
  · rw [if_neg hdup] at h
    simp only at h
    by_cases hp1 : v.parents.1 ≠ Hash.zero
    · rw [if_pos hp1] at h
      by_cases hm1 : (mget d.vertices v.parents.1).isNone
      · rw [if_pos hm1] at h
        obtain ⟨he, hd⟩ := Prod.mk.injEq .. ▸ h
        cases he
        subst hd
        refine ⟨rfl, rfl, fun _ => rfl, fun _ hs => ?_⟩
        rw [Option.isNone_iff_eq_none] at hm1
        rw [hm1] at hs
        exact absurd hs (by simp)
      · rw [if_neg hm1] at h
        by_cases hm2 : (mget d.vertices v.parents.2).isNone
        · rw [if_pos hm2] at h
          obtain ⟨he, hd⟩ := Prod.mk.injEq .. ▸ h
          cases he
          subst hd
          refine ⟨rfl, rfl, ?_, ?_⟩
          · intro hcase
            rcases hcase with h1 | h1
            · exact absurd h1 (by simp)
            · exact absurd h1 hm1
          · intro _ _
            exact ⟨rfl, hm2, rfl, rfl⟩
        · rw [if_neg hm2] at h
          exact absurd (Prod.mk.injEq .. ▸ h).1 (by simp)
    · rw [if_neg hp1] at h
      exact absurd (Prod.mk.injEq .. ▸ h).1 (by simp)

theorem insert_ok_char {d : Dag} {v : DagVertex} {d' : Dag}
    (h : Dag.insert d v = (.ok (), d')) :
    mget d.vertices v.id = none ∧
      d'.vertices = weightLoop (2 * (d.vertices ++ [(v.id, v)]).length + 1)
        (d.vertices ++ [(v.id, v)]) [v.id] [] ∧
      ((v.parents.1 = Hash.zero ∧
          d'.children = d.children ∧
          d'.tips = d.tips ++ [v.id] ∧
          d'.genesis_id =
            (if d.genesis_id.isNone then some v.id else d.genesis_id)) ∨
        (v.parents.1 ≠ Hash.zero ∧
          (mget d.vertices v.parents.1).isSome ∧
          (mget d.vertices v.parents.2).isSome ∧
          d'.children =
            pushChild (pushChild d.children v.parents.1 v.id) v.parents.2 v.id ∧
          d'.tips = ((d.tips.filter (fun t => t ≠ v.parents.1)).filter
            (fun t => t ≠ v.parents.2)) ++ [v.id] ∧
          d'.genesis_id = d.genesis_id)) := by
  unfold Dag.insert at h
  by_cases hdup : (mget d.vertices v.id).isSome
  · rw [if_pos hdup] at h
    exact absurd (Prod.mk.injEq .. ▸ h).1 (by simp)
  · rw [if_neg hdup] at h
    simp only at h
    rw [Option.not_isSome_iff_eq_none] at hdup
    refine ⟨hdup, ?_⟩
    by_cases hp1 : v.parents.1 ≠ Hash.zero
    · rw [if_pos hp1] at h
      by_cases hm1 : (mget d.vertices v.parents.1).isNone
      · rw [if_pos hm1] at h
        exact absurd (Prod.mk.injEq .. ▸ h).1 (by simp)
      · rw [if_neg hm1] at h
        by_cases hm2 : (mget d.vertices v.parents.2).isNone
        · rw [if_pos hm2] at h
          exact absurd (Prod.mk.injEq .. ▸ h).1 (by simp)
        · rw [if_neg hm2] at h
          obtain ⟨-, hd⟩ := Prod.mk.injEq .. ▸ h
          subst hd
          unfold Dag.finishInsert Dag.update_weights
          rw [if_neg (fun hc => hp1 hc.1)]
          have hm1' : (mget d.vertices v.parents.1).isSome := by
            cases hx : mget d.vertices v.parents.1 with
            | none => rw [hx] at hm1; exact absurd rfl hm1
            | some w => rfl
          have hm2' : (mget d.vertices v.parents.2).isSome := by
            cases hx : mget d.vertices v.parents.2 with
            | none => rw [hx] at hm2; exact absurd rfl hm2
            | some w => rfl
          refine ⟨by simp, Or.inr ⟨hp1, hm1', hm2', rfl, rfl, rfl⟩⟩
    · rw [if_neg hp1] at h
      obtain ⟨-, hd⟩ := Prod.mk.injEq .. ▸ h
      subst hd
      rw [Classical.not_not] at hp1
      unfold Dag.finishInsert Dag.update_weights
      by_cases hg : d.genesis_id.isNone
      · rw [if_pos ⟨hp1, hg⟩]
        refine ⟨by simp, Or.inl ⟨hp1, rfl, rfl, by rw [if_pos hg]⟩⟩
      · rw [if_neg (by intro hc; exact hg hc.2)]
        refine ⟨by simp, Or.inl ⟨hp1, rfl, rfl, by rw [if_neg hg]⟩⟩

theorem forall2_mget_isSome {a b : List (Hash × DagVertex)}
    (h : List.Forall₂ VertexStep a b) (k : Nat) :
    (mget a k).isSome = (mget b k).isSome := by
  cases ha : mget a k with
  | none => rw [forall2_mget_none h ha]
  | some v =>
    obtain ⟨v', hv', -⟩ := forall2_mget_fwd h ha
    rw [hv']
    rfl

theorem vertexStep_parents {q p : Hash × DagVertex} (h : VertexStep q p) :
    q.2.parents = p.2.parents := by
  unfold DagVertex.parents
  rw [h.2.1]

/-! ## Invariants of reachable ledger states -/

theorem reaches_any {d : Dag} (h : Reaches d) : ReachesAny d := by
  induction h with
  | base => exact ReachesAny.base
  | step d tx depth d' hprev hins ih =>
    have hstep := ReachesAny.step d tx depth ih
    rw [hins] at hstep
    exact hstep

/-- In any state reachable by `Dag::insert` calls, a stored vertex whose
first parent slot is nonzero has both parent digests resident: the
insertion that admitted it checked them, and the vertex map only grows. -/
theorem dangling_free {d : Dag} (h : ReachesAny d) :
    ∀ p ∈ d.vertices, p.2.parents.1 ≠ Hash.zero →
      (mget d.vertices p.2.parents.1).isSome ∧
        (mget d.vertices p.2.parents.2).isSome := by
  induction h with
  | base => intro p hp; simp [Dag.new] at hp
  | step d tx depth hprev ih =>
    set nv := DagVertex.new tx depth with hnv
    cases hr : (Dag.insert d nv).1 with
    | error e =>
      have hins : Dag.insert d nv = (.error e, (Dag.insert d nv).2) := by
        rw [← hr]
      obtain ⟨hverts, -⟩ := insert_err_char hins
      rw [hverts]
      exact ih
    | ok u =>
      cases u
      have hins : Dag.insert d nv = (.ok (), (Dag.insert d nv).2) := by
        rw [← hr]
      obtain ⟨hdup, hverts, hcase⟩ := insert_ok_char hins
      rw [hverts]
      set L := d.vertices ++ [(nv.id, nv)] with hL
      set W := weightLoop (2 * L.length + 1) L [nv.id] [] with hW
      have hF2 : List.Forall₂ VertexStep L W := forall2_weightLoop _ _ _ _
      have htrans : ∀ k : Nat, (mget d.vertices k).isSome →
          (mget W k).isSome := by
        intro k hk
        obtain ⟨w, hw⟩ := Option.isSome_iff_exists.mp hk
        have hwL : mget L k = some w := mget_append_some _ hw
        obtain ⟨w', hw', -⟩ := forall2_mget_fwd hF2 hwL
        rw [hw']
        rfl
      intro p hp hne
      obtain ⟨q, hqL, hstep⟩ := forall2_mem_bwd hF2 hp
      have hpar : q.2.parents = p.2.parents := vertexStep_parents hstep
      rcases List.mem_append.mp hqL with hqold | hqnew
      · obtain ⟨h1, h2⟩ := ih q hqold (by rw [hpar]; exact hne)
        rw [hpar] at h1 h2
        exact ⟨htrans _ h1, htrans _ h2⟩
      · have hq : q = (nv.id, nv) := by simpa using hqnew
        subst hq
        rcases hcase with ⟨hz, -⟩ | ⟨-, h1, h2, -⟩
        · exact absurd hz (by rw [hpar]; exact hne)
        · rw [hpar] at h1 h2
          exact ⟨htrans _ h1, htrans _ h2⟩

/-- In any state reachable by successful insertions, every stored
finality flag equals the threshold test on the stored weight. -/
theorem flagOk_reaches {d : Dag} (h : Reaches d) : FlagOk d.vertices := by
  induction h with
  | base => intro p hp; simp [Dag.new] at hp
  | step d tx depth d' hprev hins ih =>
    obtain ⟨-, hverts, -⟩ := insert_ok_char hins
    rw [hverts]
    apply flagOk_weightLoop
    apply flagOk_append ih
    intro p hp
    have hp2 : p = ((DagVertex.new tx depth).id, DagVertex.new tx depth) := by
      simpa using hp
    subst hp2
    simp [DagVertex.new, FINALITY_THRESHOLD]

/-- A digest absent from the vertex map of a reachable state is not named
as a parent by any resident vertex whose first parent slot is nonzero:
such vertices were admitted with both parents resident. -/
theorem fresh_not_named {d : Dag} (h : ReachesAny d) {k : Hash}
    (hdup : mget d.vertices k = none) : namesParent d.vertices k = false := by
  by_contra hc
  rw [Bool.not_eq_false, namesParent, List.any_eq_true] at hc
  obtain ⟨p, hp, hpred⟩ := hc
  obtain ⟨hne, hor⟩ := of_decide_eq_true hpred
  obtain ⟨h1, h2⟩ := dangling_free h p hp hne
  rcases hor with ho | ho
  · rw [ho, hdup] at h1
    exact absurd h1 (by simp)
  · rw [ho, hdup] at h2
    exact absurd h2 (by simp)

theorem namesParent_append (a b : List (Hash × DagVertex)) (id : Hash) :
    namesParent (a ++ b) id = (namesParent a id || namesParent b id) := by
  unfold namesParent
  exact List.any_append

/-- In any state reachable by successful insertions, the tip list holds
exactly the resident ids that no resident vertex with a nonzero first
parent slot names as a parent. -/
theorem tips_spec {d : Dag} (h : Reaches d) :
    ∀ id : Hash, id ∈ d.tips ↔
      ((mget d.vertices id).isSome ∧ namesParent d.vertices id = false) := by
  induction h with
  | base =>
    intro id
    simp [Dag.new, mget, namesParent]
  | step d tx depth d' hprev hins ih =>
    obtain ⟨hdup, hverts, hcase⟩ := insert_ok_char hins
    set nv := DagVertex.new tx depth with hnv
    set L := d.vertices ++ [(nv.id, nv)] with hL
    have hF2 : List.Forall₂ VertexStep L d'.vertices := by
      rw [hverts]
      exact forall2_weightLoop _ _ _ _
    have hsome : ∀ k : Nat, (mget d'.vertices k).isSome = (mget L k).isSome :=
      fun k => (forall2_mget_isSome hF2 k).symm
    have hnames : ∀ k, namesParent d'.vertices k = namesParent L k :=
      fun k => (forall2_namesParent hF2 k).symm
    have hgetL : ∀ k, k ≠ nv.id →
        (mget L k).isSome = (mget d.vertices k).isSome := by
      intro k hk
      cases hv : mget d.vertices k with
      | some w =>
        have h1 : mget L k = some w := by
          rw [hL]
          exact mget_append_some _ hv
        rw [h1]
      | none =>
        have h1 : mget L k = mget [(nv.id, nv)] k := by
          rw [hL]
          exact mget_append_none _ hv
        rw [h1]
        simp [mget, Ne.symm hk]
    have hLid : (mget L nv.id).isSome := by
      rw [hL, mget_append_none _ hdup]
      simp [mget]
    have hfresh : namesParent d.vertices nv.id = false :=
      fresh_not_named (reaches_any hprev) hdup
    have hnamesL : ∀ k, namesParent L k =
        (namesParent d.vertices k ||
          decide (nv.parents.1 ≠ Hash.zero ∧
            (nv.parents.1 = k ∨ nv.parents.2 = k))) := by
      intro k
      rw [hL, namesParent_append]
      simp [namesParent]
    intro id
    rw [hsome id, hnames id, hnamesL id]
    rcases hcase with ⟨hz, -, htips, -⟩ | ⟨hnz, hp1, hp2, -, htips, -⟩
    · rw [htips]
      by_cases hid : id = nv.id
      · subst hid
        simp [hLid, hfresh, hz]
      · rw [hgetL id hid]
        have hdec : decide (nv.parents.1 ≠ Hash.zero ∧
            (nv.parents.1 = id ∨ nv.parents.2 = id)) = false := by
          simp [hz]
        rw [hdec, Bool.or_false]
        simp only [List.mem_append, List.mem_singleton, hid, or_false]
        exact ih id
    · rw [htips]
      have hne1 : nv.parents.1 ≠ nv.id := by
        intro hcontra
        rw [hcontra, hdup] at hp1
        exact absurd hp1 (by simp)
      have hne2 : nv.parents.2 ≠ nv.id := by
        intro hcontra
        rw [hcontra, hdup] at hp2
        exact absurd hp2 (by simp)
      by_cases hid : id = nv.id
      · subst hid
        have hdec : decide (nv.parents.1 ≠ Hash.zero ∧
            (nv.parents.1 = nv.id ∨ nv.parents.2 = nv.id)) = false := by
          simp [hne1, hne2]
        rw [hdec, Bool.or_false]
        simp [hLid, hfresh]
      · rw [hgetL id hid]
        have hmem : id ∈ ((d.tips.filter (fun t => t ≠ nv.parents.1)).filter
            (fun t => t ≠ nv.parents.2)) ++ [nv.id] ↔
            (id ∈ d.tips ∧ id ≠ nv.parents.1 ∧ id ≠ nv.parents.2) := by
          simp only [List.mem_append, List.mem_singleton, hid, or_false,
            List.mem_filter, decide_eq_true_eq]
          tauto
        rw [hmem]
        have hdec : decide (nv.parents.1 ≠ Hash.zero ∧
            (nv.parents.1 = id ∨ nv.parents.2 = id)) =
            decide (nv.parents.1 = id ∨ nv.parents.2 = id) := by
          simp [hnz]
        rw [hdec]
        rw [ih id]
        constructor
        · intro ⟨⟨hs, hn⟩, hd1, hd2⟩
          refine ⟨hs, ?_⟩
          rw [Bool.or_eq_false_iff]
          refine ⟨hn, ?_⟩
          simp [Ne.symm hd1, Ne.symm hd2]
        · intro ⟨hs, hb⟩
          rw [Bool.or_eq_false_iff] at hb
          obtain ⟨hn, hb2⟩ := hb
          rw [decide_eq_false_iff_not] at hb2
          push_neg at hb2
          exact ⟨⟨hs, hn⟩, Ne.symm hb2.1, Ne.symm hb2.2⟩

/-! ## The claims -/

/-- C1: the claim says `cumulative_weight(v)` is 1 plus the number of
distinct inserted vertices from which `v` is reachable over parent edges,
each ancestor counted at most once per insertion even under diamond
re-convergence or two identical parent digests.  Evaluating the code at
the failing input: after inserting the genesis (id 1) and a single child
(id 2) whose two parent slots both hold digest 1, the stored weight of
the genesis is 3 — the insertion walk increments a parent once per parent
slot, so the single new descendant was counted twice, where the claim
predicts `1 + 1 = 2`. -/
theorem claim_C1 :
    (dagC1.get 1).map (fun v => v.cumulative_weight) = some 3 ∧
    dagC1.transaction_ids = [1, 2] ∧
    (dagC1.get 2).map (fun v => v.transaction.data.parents) = some (1, 1) :=
  ⟨rfl, rfl, rfl⟩

/-- C2: the claim says the from-scratch auditor
`WeightCalculator::calculate_all_weights` agrees with the incrementally
maintained weights on every vertex after any valid insertion sequence.
Evaluating both at the failing input: on the two-vertex ledger whose
child names the genesis in both parent slots, the auditor (which guards
its increment with the per-source visited set) reports weight 2 for the
genesis while the vertex stores weight 3. -/
theorem claim_C2 :
    mget (WeightCalculator.calculate_all_weights dagC1) 1 = some 2 ∧
    (dagC1.get 1).map (fun v => v.cumulative_weight) = some 3 :=
  ⟨rfl, rfl⟩

/-- C3 counterexample: the claim says a failing `Dag::insert` leaves the
ledger exactly as it was, including when the first parent exists and the
second is missing.  On the ledger holding only the genesis (id 1),
inserting a vertex with parents `(1, 7)` (digest 7 absent) returns
`MissingParent(7)` yet removes the genesis from the tip list and records
id 2 as a child of the genesis. -/
theorem claim_C3_counterexample :
    (Dag.insert dagG (DagVertex.new missTx 1)).1 = .error (.MissingParent 7) ∧
    dagG.tips = [1] ∧
    (Dag.insert dagG (DagVertex.new missTx 1)).2.tips = [] ∧
    dagG.children = [] ∧
    (Dag.insert dagG (DagVertex.new missTx 1)).2.children = [(1, [2])] :=
  ⟨rfl, rfl, rfl, rfl, rfl⟩

/-- C3 amended: whenever `Dag::insert` returns an error, the vertex map
and genesis id are unchanged; on `DuplicateTransaction`, or when the
first parent digest is absent, the whole state is unchanged; but when the
first parent is present and the error is raised on the second parent
slot, the new id has already been appended to the first parent's child
list and the first parent has been removed from the tip set. -/
theorem claim_C3 (d : Dag) (v : DagVertex) (e : DagError) (d' : Dag)
    (h : Dag.insert d v = (.error e, d')) :
    d'.vertices = d.vertices ∧ d'.genesis_id = d.genesis_id ∧
      ((e = .DuplicateTransaction ∨ (mget d.vertices v.parents.1).isNone)
        → d' = d) ∧
      (e ≠ .DuplicateTransaction → (mget d.vertices v.parents.1).isSome →
        d'.children = pushChild d.children v.parents.1 v.id ∧
          d'.tips = d.tips.filter (fun t => t ≠ v.parents.1)) := by
  obtain ⟨h1, h2, h3, h4⟩ := insert_err_char h
  exact ⟨h1, h2, h3, fun he hs => ⟨(h4 he hs).2.2.1, (h4 he hs).2.2.2⟩⟩

theorem claim_C3_witness :
    (Dag.insert dagG (DagVertex.new missTx 1)).2.children =
      pushChild dagG.children 1 2 ∧
    (Dag.insert dagG (DagVertex.new missTx 1)).2.tips =
      dagG.tips.filter (fun t => t ≠ 1) := by
  have h := claim_C3 dagG (DagVertex.new missTx 1) (.MissingParent 7)
    (Dag.insert dagG (DagVertex.new missTx 1)).2 (by rfl)
  exact h.2.2.2 (by decide) (by decide)

/-- C4 counterexample: the claim says a vertex whose parent digests are
not both zero is only admitted with both parents resident.  Inserting,
into an empty ledger, a vertex with parents `(0, 7)` succeeds — the
source only tests the first slot for the zero sentinel — and the
resulting ledger holds a vertex with a dangling nonzero parent
reference 7. -/
theorem claim_C4_counterexample :
    (Dag.insert Dag.new (DagVertex.new dangTx 0)).1 = .ok () ∧
    (dagDang.get 5).map (fun v => v.transaction.data.parents) = some (0, 7) ∧
    (7 : Hash) ≠ Hash.zero ∧
    dagDang.get 7 = none :=
  ⟨rfl, rfl, by decide, rfl⟩

/-- C4 amended: in every state reachable by `Dag::insert` calls
(successful or failed), every resident vertex whose FIRST parent slot is
nonzero was admitted with both parents resident, and they remain
resident: the ledger never holds a dangling reference through a vertex
whose first parent digest is nonzero. -/
theorem claim_C4 (d : Dag) (h : ReachesAny d) :
    ∀ p ∈ d.vertices, p.2.parents.1 ≠ Hash.zero →
      (d.get p.2.parents.1).isSome ∧ (d.get p.2.parents.2).isSome :=
  dangling_free h

theorem claim_C4_witness :
    (dagC1.get ((2 : Hash), DagVertex.new childTx 1).2.parents.1).isSome ∧
    (dagC1.get ((2 : Hash), DagVertex.new childTx 1).2.parents.2).isSome := by
  have hreach : ReachesAny dagC1 :=
    ReachesAny.step dagG childTx 1 (ReachesAny.step Dag.new genesisTx 0
      ReachesAny.base)
  exact claim_C4 dagC1 hreach (2, DagVertex.new childTx 1) (by decide)
    (by decide)

/-- C5: in every state reachable by successful insertions, the stored
`is_final` flag equals the test `cumulative_weight ≥ FINALITY_THRESHOLD`
(so the flag flips to true exactly at the step at which the weight first
reaches the threshold); across any further successful insertion a
vertex's weight never decreases and a true flag stays true; and a
freshly constructed vertex starts with flag false and weight 1. -/
theorem claim_C5 (d : Dag) (h : Reaches d) :
    (∀ k v, d.get k = some v →
      v.is_final = decide (FINALITY_THRESHOLD ≤ v.cumulative_weight)) ∧
    (∀ (tx : Transaction) (depth : Nat) (d' : Dag),
      Dag.insert d (DagVertex.new tx depth) = (.ok (), d') →
      ∀ k v v', d.get k = some v → d'.get k = some v' →
        v.cumulative_weight ≤ v'.cumulative_weight ∧
        (v.is_final = true → v'.is_final = true)) ∧
    (∀ (tx : Transaction) (depth : Nat),
      (DagVertex.new tx depth).is_final = false ∧
      (DagVertex.new tx depth).cumulative_weight = 1) := by
  refine ⟨?_, ?_, fun tx depth => ⟨rfl, rfl⟩⟩
  · intro k v hv
    exact flagOk_reaches h (k, v) (mget_some_mem hv)
  · intro tx depth d' hins k v v' hv hv'
    obtain ⟨-, hverts, -⟩ := insert_ok_char hins
    have hvL : mget (d.vertices ++
        [((DagVertex.new tx depth).id, DagVertex.new tx depth)]) k = some v :=
      mget_append_some _ hv
    have hF2 : List.Forall₂ VertexStep
        (d.vertices ++ [((DagVertex.new tx depth).id, DagVertex.new tx depth)])
        d'.vertices := by
      rw [hverts]
      exact forall2_weightLoop _ _ _ _
    obtain ⟨w', hw', hstep⟩ := forall2_mget_fwd hF2 hvL
    have hv'2 : mget d'.vertices k = some v' := hv'
    have heq := hw'.symm.trans hv'2
    cases Option.some.inj heq
    exact ⟨hstep.2.2.2.2.1, hstep.2.2.2.2.2⟩

theorem claim_C5_witness :
    (⟨genesisTx, 3, 1, false, 0⟩ : DagVertex).is_final =
      decide (FINALITY_THRESHOLD ≤
        (⟨genesisTx, 3, 1, false, 0⟩ : DagVertex).cumulative_weight) := by
  have hreach : Reaches dagC1 :=
    Reaches.step dagG childTx 1 dagC1
      (Reaches.step Dag.new genesisTx 0 dagG Reaches.base (by rfl)) (by rfl)
  exact (claim_C5 dagC1 hreach).1 1 ⟨genesisTx, 3, 1, false, 0⟩ (by rfl)

/-- C6 counterexample: the claim says the tip collection equals the set
of inserted ids that no other inserted vertex names as a parent.  After
inserting the genesis (id 1) and a vertex (id 2) whose parent slots are
`(0, 1)` — admitted through the genesis-shaped path because its first
slot is zero — the genesis is still a tip even though vertex 2 names it
as a parent. -/
theorem claim_C6_counterexample :
    (1 : Hash) ∈ dagHalf.tips ∧
    mget dagHalf.vertices 2 = some (DagVertex.new halfTx 1) ∧
    (DagVertex.new halfTx 1).parents.2 = 1 ∧ (2 : Hash) ≠ 1 :=
  ⟨by decide, rfl, rfl, by decide⟩

/-- C6 amended: after any sequence of successful insertions, the tip
collection holds exactly the resident ids that are not named as a parent
by any resident vertex whose first parent slot is nonzero (only such
vertices pass through the parent-registration loop that removes tips). -/
theorem claim_C6 (d : Dag) (h : Reaches d) :
    ∀ id : Hash, id ∈ d.tips ↔
      ((d.get id).isSome ∧ namesParent d.vertices id = false) :=
  tips_spec h

theorem claim_C6_witness : (2 : Hash) ∈ dagC1.tips := by
  have hreach : Reaches dagC1 :=
    Reaches.step dagG childTx 1 dagC1
      (Reaches.step Dag.new genesisTx 0 dagG Reaches.base (by rfl)) (by rfl)
  exact (claim_C6 dagC1 hreach 2).mpr (by decide)

/-- C7: for a Transfer transaction whose id and signature verify,
`validate` returns `ZeroAmount` iff the amount is zero; otherwise
`ExceedsMaxSupply` iff the amount exceeds `MAX_SUPPLY`; otherwise
`ParentNotFound` iff either parent digest is absent; otherwise
`InsufficientBalance{have, need}` — with `have` the sender's ledger
balance and `need` the 64-bit sum `amount + fee` — iff that balance is
below `need`; otherwise `Ok`: the checks short-circuit in exactly this
order. -/
theorem claim_C7 (verifyId verifySig : Transaction → Bool) (tx : Transaction)
    (d : Dag) (hid : verifyId tx = true) (hsig : verifySig tx = true)
    (hty : tx.data.tx_type = .Transfer) :
    (validate verifyId verifySig tx d = .error .ZeroAmount ↔
      tx.data.amount = 0) ∧
    (validate verifyId verifySig tx d = .error .ExceedsMaxSupply ↔
      (tx.data.amount ≠ 0 ∧ MAX_SUPPLY < tx.data.amount)) ∧
    (validate verifyId verifySig tx d = .error .ParentNotFound ↔
      (tx.data.amount ≠ 0 ∧ tx.data.amount ≤ MAX_SUPPLY ∧
        ((d.get tx.data.parents.1).isNone ∨
          (d.get tx.data.parents.2).isNone))) ∧
    (∀ hv nd : Nat,
      validate verifyId verifySig tx d = .error (.InsufficientBalance hv nd) ↔
      (tx.data.amount ≠ 0 ∧ tx.data.amount ≤ MAX_SUPPLY ∧
        (d.get tx.data.parents.1).isSome ∧ (d.get tx.data.parents.2).isSome ∧
        d.get_balance tx.data.sender <
          (tx.data.amount + tx.data.fee) % U64_MOD ∧
        hv = d.get_balance tx.data.sender ∧
        nd = (tx.data.amount + tx.data.fee) % U64_MOD)) ∧
    (validate verifyId verifySig tx d = .ok () ↔
      (tx.data.amount ≠ 0 ∧ tx.data.amount ≤ MAX_SUPPLY ∧
        (d.get tx.data.parents.1).isSome ∧ (d.get tx.data.parents.2).isSome ∧
        (tx.data.amount + tx.data.fee) % U64_MOD ≤
          d.get_balance tx.data.sender)) := by
  have hval : validate verifyId verifySig tx d = validate_transfer tx d := by
    unfold validate
    rw [hty]
    simp [hid, hsig]
  rw [hval]
  unfold validate_transfer
  by_cases h1 : tx.data.amount = 0
  · simp [h1]
  · rw [if_neg h1]
    by_cases h2 : MAX_SUPPLY < tx.data.amount
    · have h2' : ¬ tx.data.amount ≤ MAX_SUPPLY := Nat.not_le.mpr h2
      simp [h1, h2, h2']
    · rw [if_neg h2]
      have h2' : tx.data.amount ≤ MAX_SUPPLY := Nat.not_lt.mp h2
      by_cases h3 : (Dag.get d tx.data.parents.1).isNone
      · rw [if_pos h3]
        have hn1 : d.get tx.data.parents.1 = none :=
          Option.isNone_iff_eq_none.mp h3
        simp [h1, h2', hn1]
      · rw [if_neg h3]
        have hs1 : (d.get tx.data.parents.1).isSome := by
          cases hx : d.get tx.data.parents.1 with
          | none => rw [Option.isNone_iff_eq_none] at h3; exact absurd hx h3
          | some w => rfl
        by_cases h4 : (Dag.get d tx.data.parents.2).isNone
        · rw [if_pos h4]
          have hn2 : d.get tx.data.parents.2 = none :=
            Option.isNone_iff_eq_none.mp h4
          simp [h1, h2', hn2, hs1]
        · rw [if_neg h4]
          have hs2 : (d.get tx.data.parents.2).isSome := by
            cases hx : d.get tx.data.parents.2 with
            | none => rw [Option.isNone_iff_eq_none] at h4; exact absurd hx h4
            | some w => rfl
          have hn1' : ¬ (d.get tx.data.parents.1).isNone = true := h3
          have hn2' : ¬ (d.get tx.data.parents.2).isNone = true := h4
          by_cases h5 : d.get_balance tx.data.sender <
              (tx.data.amount + tx.data.fee) % U64_MOD
          · rw [if_pos h5]
            have h5' : ¬ (tx.data.amount + tx.data.fee) % U64_MOD ≤
                d.get_balance tx.data.sender := Nat.not_le.mpr h5
            refine ⟨by simp [h1], by simp [h2], ?_, ?_, ?_⟩
            · simp only [Except.error.injEq]
              constructor
              · intro hc
                cases hc
              · intro hc
                rcases hc.2.2 with hc1 | hc1
                · exact absurd hc1 hn1'
                · exact absurd hc1 hn2'
            · intro hv nd
              simp only [Except.error.injEq, ValidationError.InsufficientBalance.injEq]
              constructor
              · intro ⟨hha, hhn⟩
                exact ⟨h1, h2', hs1, hs2, h5, hha.symm, hhn.symm⟩
              · intro hc
                exact ⟨hc.2.2.2.2.2.1.symm, hc.2.2.2.2.2.2.symm⟩
            · simp [h5']
          · rw [if_neg h5]
            have h5' : (tx.data.amount + tx.data.fee) % U64_MOD ≤
                d.get_balance tx.data.sender := Nat.not_lt.mp h5
            refine ⟨by simp [h1], by simp [h2], ?_, ?_,
              by simp [h1, h2', hs1, hs2, h5']⟩
            · constructor
              · intro hc
                cases hc
              · intro hc
                rcases hc.2.2 with hc1 | hc1
                · exact absurd hc1 hn1'
                · exact absurd hc1 hn2'
            · intro hv nd
              constructor
              · intro hc
                cases hc
              · intro hc
                exact absurd hc.2.2.2.2.1 h5

theorem claim_C7_witness :
    validate (fun _ => true) (fun _ => true) bigXferTx dagBal =
      .error (.InsufficientBalance 1000000 1500000) := by
  have h := claim_C7 (fun _ => true) (fun _ => true) bigXferTx dagBal rfl rfl rfl
  exact (h.2.2.2.1 1000000 1500000).mpr (by decide)

/-- C8: `calculate_reward(n)` equals `BASE_RELAY_REWARD` integer-divided
by `1 + n / RELAY_HALVING_INTERVAL`; it is non-increasing in the relay
count, and takes the values 1,000,000, 500,000 and 333,333 at counts 0,
1000 and 2000. -/
theorem claim_C8 :
    (∀ n : Nat, calculate_reward n =
      BASE_RELAY_REWARD / (1 + n / RELAY_HALVING_INTERVAL)) ∧
    (∀ n m : Nat, n ≤ m → calculate_reward m ≤ calculate_reward n) ∧
    calculate_reward 0 = 1000000 ∧
    calculate_reward 1000 = 500000 ∧
    calculate_reward 2000 = 333333 := by
  refine ⟨fun n => rfl, ?_, rfl, rfl, rfl⟩
  intro n m h
  unfold calculate_reward
  apply Nat.div_le_div_left
  · exact Nat.add_le_add_left (Nat.div_le_div_right h) 1
  · exact Nat.lt_of_lt_of_le Nat.zero_lt_one (Nat.le_add_right 1 _)

theorem claim_C8_witness : calculate_reward 2000 ≤ calculate_reward 5 :=
  claim_C8.2.1 5 2000 (by decide)

/-- C9: whenever adding the computed reward (for the post-increment
count) to the issued total would exceed `MAX_SUPPLY`, `record_relay`
returns 0 and leaves the issued total unchanged while the per-key and
global relay counters still advance by one; and in every tracker state
reachable by `record_relay` calls the issued total never exceeds
`MAX_SUPPLY`. -/
theorem claim_C9 :
    (∀ (t : RelayTracker) (k : PublicKey),
      MAX_SUPPLY < t.total_rewards_distributed +
          calculate_reward (t.relay_counts k + 1) →
        (t.record_relay k).1 = 0 ∧
        (t.record_relay k).2.total_rewards_distributed =
          t.total_rewards_distributed ∧
        (t.record_relay k).2.relay_counts k = t.relay_counts k + 1 ∧
        (t.record_relay k).2.total_relays = t.total_relays + 1) ∧
    (∀ t : RelayTracker, TrackerReaches t →
      t.total_rewards_distributed ≤ MAX_SUPPLY) := by
  constructor
  · intro t k hcap
    simp only [RelayTracker.record_relay]
    rw [if_pos hcap]
    exact ⟨rfl, rfl, by simp, rfl⟩
  · intro t h
    induction h with
    | base => exact Nat.zero_le _
    | step t k hprev ih =>
      simp only [RelayTracker.record_relay]
      by_cases hc : MAX_SUPPLY < t.total_rewards_distributed +
          calculate_reward (t.relay_counts k + 1)
      · rw [if_pos hc]
        exact ih
      · rw [if_neg hc]
        exact Nat.not_lt.mp hc

/-- A tracker that has already issued the full supply. -/
def capTracker : RelayTracker :=
  { relay_counts := fun _ => 0, total_relays := 0,
    total_rewards_distributed := MAX_SUPPLY }

theorem claim_C9_witness :
    (capTracker.record_relay 9).1 = 0 ∧
    (capTracker.record_relay 9).2.total_rewards_distributed = MAX_SUPPLY ∧
    RelayTracker.new.total_rewards_distributed ≤ MAX_SUPPLY := by
  have h := claim_C9.1 capTracker 9 (by decide)
  exact ⟨h.1, h.2.1, claim_C9.2 RelayTracker.new TrackerReaches.base⟩

/-- C10: `validate_transfer` compares the sender's balance against the
wrapping 64-bit sum `amount + fee`, so there is a Transfer transaction —
amount 1, fee `2 ^ 64 - 1` — in a reachable ledger state for which
`validate` (with both verification oracles passing) returns `Ok` even
though the mathematical sum `amount + fee` strictly exceeds the sender's
balance: the wrapped sum is 0. -/
theorem claim_C10 :
    ∃ (tx : Transaction) (d : Dag), Reaches d ∧
      tx.data.tx_type = .Transfer ∧
      1 ≤ tx.data.amount ∧ tx.data.amount ≤ MAX_SUPPLY ∧
      (tx.data.amount + tx.data.fee) % U64_MOD ≤
        d.get_balance tx.data.sender ∧
      d.get_balance tx.data.sender < tx.data.amount + tx.data.fee ∧
      validate (fun _ => true) (fun _ => true) tx d = .ok () := by
  refine ⟨wrapFeeTx, dagG, ?_, rfl, by decide, by decide, by decide,
    by decide, rfl⟩
  exact Reaches.step Dag.new genesisTx 0 dagG Reaches.base (by rfl)

end Rhiza

